import Mathlib

/-!
# VaTexAtlas texture-atlas import factory

A shallow embedding of the pure logic of
`Source/VaTexAtlasEditorPlugin/Private/VtaTextureAtlasImportFactory.cpp`:

* `ParseJSON` (lines 238-270): emptiness check, deserialisation, logging;
* the frame-UV computation of `FactoryCreateText` (lines 92-146);
* the row-name generation loop of `ImportOrReimportDataTable` (lines 370-405).

Functions that the file calls but does not define are parameters of the
definitions below: `PackageTools::SanitizePackageName`, `FChar::ToUpper`, the JSON
deserialiser, the per-character folding of the key comparison of `TSet<FString>`,
`FVtaDataFile::IsValid` and `GWarn->ReceivedUserCancel`.

Strings are lists of characters (an `FString` holds no NUL inside). Counters and
indices are natural numbers: the counter of the de-duplication loop is bounded by
the number of frame names, an `int32` array length, so it stays in range.

The frame UVs have two models. `frameUVs32` is the code's arithmetic: `int32`
operands converted to `float`, every operation rounded to the nearest binary32
value, ties to even. `frameUVs` is the exact-arithmetic reading of the same lines,
without rounding; both give a non-finite value for a division by zero.
-/

namespace VaTexAtlas

/-! ## Definitions -/

/-- An `FString` is its sequence of characters. -/
abbrev FString := List Char

/-- The engine's index for a character that was not found. -/
def INDEX_NONE : Int := -1

/-- The engine's `FString::FindChar`: the index of the first occurrence of `c`, when
there is one. -/
def FindChar : FString → Char → Option Nat
  | [], _ => none
  | x :: xs, c => if x = c then some 0 else (FindChar xs c).map (· + 1)

/-- The engine's `FString::FindLastChar`: the index of the last occurrence of `c`,
when there is one. -/
def FindLastChar : FString → Char → Option Nat
  | [], _ => none
  | x :: xs, c =>
    match FindLastChar xs c with
    | some i => some (i + 1)
    | none => if x = c then some 0 else none

/-- The value the `int32& Index` out-parameter of `FindChar` / `FindLastChar` holds
after the call: the index found, or `INDEX_NONE`. -/
def outIndex : Option Nat → Int
  | some i => (i : Int)
  | none => INDEX_NONE

/-- The engine's `FString::Left`: the leftmost `Count` characters. -/
def Left (s : FString) (Count : Int) : FString := s.take Count.toNat

/-- The engine's `FString::RemoveAt(Index)`: removes one character. -/
def RemoveAt : FString → Nat → FString
  | [], _ => []
  | _ :: xs, 0 => xs
  | x :: xs, i + 1 => x :: RemoveAt xs i

/-- The engine's `FString::InsertAt(Index, Character)`, for a character other than
NUL. The source only calls it with `Index < Len()`. -/
def InsertAt : FString → Nat → Char → FString
  | s, 0, c => c :: s
  | [], _ + 1, _ => []
  | x :: xs, i + 1, c => x :: InsertAt xs i c

/-- Lines 379-382: `Name.FindLastChar('.', Position)` followed by
`(Position < 1) ? Name : Name.Left(Position)`. -/
def stripExtension (Name : FString) : FString :=
  let Position : Int := outIndex (FindLastChar Name '.')
  if Position < 1 then Name else Left Name Position

/-- One pass of the body of the `while` loop of lines 385-393, entered with the
`Position` that `FindChar` found. -/
def removeUnderscoreAt (ToUpper : Char → Char) (RowName : FString) (Position : Nat) : FString :=
  let R1 := RemoveAt RowName Position
  if h : Position < R1.length then
    RemoveAt (InsertAt R1 Position (ToUpper (R1.get ⟨Position, h⟩))) (Position + 1)
  else
    R1

/-- Lines 385-393: `while (RowName.FindChar('_', Position)) { ... }`. The fuel bounds
the number of evaluations of the loop condition; `none` means the fuel ran out. -/
def removeUnderscores (ToUpper : Char → Char) : Nat → FString → Option FString
  | 0, _ => none
  | fuel + 1, RowName =>
    match FindChar RowName '_' with
    | none => some RowName
    | some Position => removeUnderscores ToUpper fuel (removeUnderscoreAt ToUpper RowName Position)

/-- The test `ExName.Contains(RowName)` for the `TSet<FString> ExName`, kept as the
list of the names added so far. The set compares keys with the engine's `FString` equality,
which ignores case: `keyFold` is the per-character folding that comparison applies
(the identity gives exact comparison). -/
def Contains (keyFold : Char → Char) (ExName : List FString) (RowName : FString) : Bool :=
  ExName.any (fun e => decide (e.map keyFold = RowName.map keyFold))

/-- The text `FString::Printf` builds from the format `%s%d`, the original row name
and the counter `i ≥ 0`: the name followed by the decimal digits of `i`. -/
def Printf_sd (OriginalRowName : FString) (i : Nat) : FString :=
  OriginalRowName ++ Nat.toDigits 10 i

/-- Lines 397-401:
`while (ExName.Contains(RowName)) RowName = Printf(..., *OriginalRowName, ++i)`.
Called with `i = 0` and `RowName = OriginalRowName`; `none` means the fuel ran out. -/
def dedupLoop (keyFold : Char → Char) (ExName : List FString) (OriginalRowName : FString) :
    Nat → Nat → FString → Option FString
  | 0, _, _ => none
  | fuel + 1, i, RowName =>
    if Contains keyFold ExName RowName then
      dedupLoop keyFold ExName OriginalRowName fuel (i + 1) (Printf_sd OriginalRowName (i + 1))
    else
      some RowName

/-- Lines 379-393 for one frame name: strip the extension, prepend `_` to the
sanitised name, run the underscore loop. -/
def baseRowName (SanitizePackageName : FString → FString) (ToUpper : Char → Char)
    (fuel : Nat) (Name : FString) : Option FString :=
  removeUnderscores ToUpper fuel ('_' :: SanitizePackageName (stripExtension Name))

/-- The `for (const FString& Name : TextureAtlas->FrameNames)` loop of lines 372-405,
with the running set `ExName`; the result lists the names passed to `AddRow`, in order. -/
def rowNameLoop (SanitizePackageName : FString → FString) (ToUpper keyFold : Char → Char)
    (fuel : Nat) : List FString → List FString → Option (List FString)
  | _, [] => some []
  | ExName, Name :: rest =>
    match baseRowName SanitizePackageName ToUpper fuel Name with
    | none => none
    | some OriginalRowName =>
      match dedupLoop keyFold ExName OriginalRowName fuel 0 OriginalRowName with
      | none => none
      | some RowName =>
        match rowNameLoop SanitizePackageName ToUpper keyFold fuel (ExName ++ [RowName]) rest with
        | none => none
        | some rows => some (RowName :: rows)

/-- Row-name generation of `ImportOrReimportDataTable`: the loop started with the
empty `ExName` of line 370. -/
def generateRowNames (SanitizePackageName : FString → FString) (ToUpper keyFold : Char → Char)
    (fuel : Nat) (FrameNames : List FString) : Option (List FString) :=
  rowNameLoop SanitizePackageName ToUpper keyFold fuel [] FrameNames

/-- Reference (from the specification's wording) for the underscore loop: delete
every `_`; a character kept right after a deleted `_` is upper-cased. The flag says
whether the previous character was a deleted `_`. -/
def camelCaseFrom (ToUpper : Char → Char) : Bool → FString → FString
  | _, [] => []
  | afterUnderscore, c :: cs =>
    if c = '_' then camelCaseFrom ToUpper true cs
    else (if afterUnderscore then ToUpper c else c) :: camelCaseFrom ToUpper false cs

/-- Reference camel-casing of a whole string. -/
def camelCaseRef (ToUpper : Char → Char) (s : FString) : FString :=
  camelCaseFrom ToUpper false s

/-- Upper-cases the first character, if any: the effect of lines 388-392 on the
text that followed the removed underscore. -/
def upperFirst (ToUpper : Char → Char) : FString → FString
  | [] => []
  | c :: cs => ToUpper c :: cs

/-- The ten decimal digit characters. -/
def decimalDigits : List Char := ['0', '1', '2', '3', '4', '5', '6', '7', '8', '9']

/-- The number a string of decimal digits denotes. -/
def decimalValue (s : List Char) : Nat :=
  s.foldl (fun a c => 10 * a + (c.toNat - 48)) 0

/-- The name the loop of lines 397-401 holds when its counter is `i`: the original
name at `i = 0`, the original name followed by the decimal `i` afterwards. -/
def candidate (OriginalRowName : FString) (i : Nat) : FString :=
  if i = 0 then OriginalRowName else Printf_sd OriginalRowName i

/-- Image size of the atlas (`DataModel.Meta.Size`). -/
structure FVtaSize where
  W : Int
  H : Int

/-- Pixel rectangle of a frame (`Frame.Frame`). -/
structure FVtaRect where
  X : Int
  Y : Int
  W : Int
  H : Int

/-- One entry of `DataModel.Frames`. -/
structure FVtaFrame where
  Filename : FString
  Frame : FVtaRect

/-- The part of `DataModel.Meta` the import reads. -/
structure FVtaMeta where
  Image : FString
  Size : FVtaSize

/-- The parsed data file. -/
structure FVtaDataFile where
  Frames : List FVtaFrame
  Meta : FVtaMeta

/-- A `float` value: a finite value, given by the rational number it denotes, or
`nonFinite` for an infinity or a NaN. -/
inductive FloatVal where
  | finite (q : ℚ)
  | nonFinite
  deriving DecidableEq

/-- The quotient `(float)a / b` for integers `a`, `b` in the exact-arithmetic
reading: the exact rational quotient, without rounding (`floatDiv32` is the rounded
one). Dividing by zero gives an infinity or a NaN, not an error. -/
def floatDiv (a b : Int) : FloatVal :=
  if b = 0 then FloatVal.nonFinite else FloatVal.finite ((a : ℚ) / (b : ℚ))

/-- Sum of two `float`s in the exact-arithmetic reading: the exact rational sum,
without rounding (`floatAdd32` is the rounded one); a non-finite operand gives a
non-finite sum. -/
def floatAdd : FloatVal → FloatVal → FloatVal
  | FloatVal.finite a, FloatVal.finite b => FloatVal.finite (a + b)
  | _, _ => FloatVal.nonFinite

/-- The four channels of `FrameUVs`. -/
structure FLinearColor where
  R : FloatVal
  G : FloatVal
  B : FloatVal
  A : FloatVal
  deriving DecidableEq

/-- Lines 142-146 in the exact-arithmetic reading, without rounding: the UVs of a
frame as `(U, UMax, V, VMax)`. The code's own binary32 arithmetic is `frameUVs32`. -/
def frameUVs (Frame : FVtaRect) (Size : FVtaSize) : FLinearColor :=
  let R := floatDiv Frame.X Size.W
  let G := floatAdd R (floatDiv Frame.W Size.W)
  let B := floatDiv Frame.Y Size.H
  let A := floatAdd B (floatDiv Frame.H Size.H)
  { R := R, G := G, B := B, A := A }

/-- Rounding of the non-negative fraction `N / D` to the nearest natural number,
a tie going to the even neighbour. -/
def roundHalfEven (N D : Nat) : Nat :=
  if D < 2 * (N % D) ∨ (2 * (N % D) = D ∧ (N / D) % 2 = 1) then N / D + 1 else N / D

/-- The binary exponent of the positive fraction `n / d`: the integer `e` with
`2 ^ e ≤ n / d < 2 ^ (e + 1)`. -/
def floorLog2 (n d : Nat) : Int :=
  let e0 : Int := (Nat.log2 n : Int) - (Nat.log2 d : Int)
  if d * 2 ^ e0.toNat ≤ n * 2 ^ (-e0).toNat then e0 else e0 - 1

/-- The exponent of the unit in the last place of the binary32 values around `q`:
24 significant bits at the binary exponent of `q`, but never below the fixed
spacing `2 ^ (-149)` of the subnormal range. -/
def ulpExponent32 (q : ℚ) : Int :=
  max (floorLog2 q.num.natAbs q.den) (-126) - 23

/-- The magnitude of `q` in units in the last place, rounded to the nearest natural
number, ties to even. -/
def significand32 (q : ℚ) : Nat :=
  roundHalfEven (q.num.natAbs * 2 ^ (-(ulpExponent32 q)).toNat)
    (q.den * 2 ^ (ulpExponent32 q).toNat)

/-- Rounding to the nearest binary32 value, ties to even, before the overflow
test: the rounded significand times the unit in the last place, with the sign
of `q`. -/
def roundNearest32 (q : ℚ) : ℚ :=
  if q = 0 then 0
  else if q < 0 then -((significand32 q : ℚ) * (2 : ℚ) ^ ulpExponent32 q)
  else (significand32 q : ℚ) * (2 : ℚ) ^ ulpExponent32 q

/-- The binary32 result of an operation whose exact value is `q`: the nearest
binary32 value, or an infinity when that reaches `2 ^ 128`. -/
def roundBinary32 (q : ℚ) : FloatVal :=
  if (2 : ℚ) ^ (128 : Nat) ≤ |roundNearest32 q| then FloatVal.nonFinite
  else FloatVal.finite (roundNearest32 q)

/-- The conversion of an `int32` to `float`: the nearest binary32 value (an `int32`
is far below the overflow threshold). -/
def intToFloat (n : Int) : ℚ := roundNearest32 (n : ℚ)

/-- The binary32 quotient `(float)a / b` of two `int32` values, both converted to
`float` first: non-finite for a zero divisor, the rounded quotient otherwise. -/
def floatDiv32 (a b : Int) : FloatVal :=
  if intToFloat b = 0 then FloatVal.nonFinite
  else roundBinary32 (intToFloat a / intToFloat b)

/-- The binary32 sum of two `float`s; a non-finite operand gives a non-finite
sum. -/
def floatAdd32 : FloatVal → FloatVal → FloatVal
  | FloatVal.finite a, FloatVal.finite b => roundBinary32 (a + b)
  | _, _ => FloatVal.nonFinite

/-- The `for` loop of lines 127-218, as far as the UVs go: iteration `i` stops the
loop when the user cancelled, and computes the UVs of frame `i` otherwise. -/
def frameLoop (ReceivedUserCancel : Nat → Bool) (Size : FVtaSize) :
    Nat → List FVtaFrame → List FLinearColor
  | _, [] => []
  | i, Frame :: rest =>
    if ReceivedUserCancel i then []
    else frameUVs Frame.Frame Size :: frameLoop ReceivedUserCancel Size (i + 1) rest

/-- Lines 98-226: the frame UVs that `FactoryCreateText` computes. `IsValid` is
`FVtaDataFile::IsValid`, declared outside this file; `none` is the null `Result`
of a data model that is not valid. -/
def FactoryCreateText_frameUVs (IsValid : FVtaDataFile → Bool) (ReceivedUserCancel : Nat → Bool)
    (DataModel : FVtaDataFile) : Option (List FLinearColor) :=
  if IsValid DataModel then
    some (frameLoop ReceivedUserCancel DataModel.Meta.Size 0 DataModel.Frames)
  else
    none

/-- The two `UE_LOG(..., Error, ...)` entries of `ParseJSON`. -/
inductive LogEntry where
  | failedToParse (NameForErrors : FString) (ErrorMessage : FString)
  | wasEmpty (NameForErrors : FString)
  deriving DecidableEq

/-- What `FJsonSerializer::Deserialize(Reader, DescriptorObject)` leaves behind:
its return value, the object pointer and the reader's error message. -/
structure DeserializeResult (Json : Type) where
  success : Bool
  DescriptorObject : Option Json
  ErrorMessage : FString

/-- The call `ParseJSON(FileContents, NameForErrors, bSilent)`: the returned pointer
(`none` is `nullptr`) and the log entries written. -/
def ParseJSON {Json : Type} (Deserialize : FString → DeserializeResult Json)
    (FileContents NameForErrors : FString) (bSilent : Bool) : Option Json × List LogEntry :=
  if !FileContents.isEmpty then
    let r := Deserialize FileContents
    if r.success && r.DescriptorObject.isSome then
      (r.DescriptorObject, [])
    else
      (none, if !bSilent then [LogEntry.failedToParse NameForErrors r.ErrorMessage] else [])
  else
    (none, if !bSilent then [LogEntry.wasEmpty NameForErrors] else [])

/-! ## Lemmas -/

theorem FindChar_eq_none_iff (s : FString) (c : Char) : FindChar s c = none ↔ c ∉ s := by
  induction s with
  | nil => simp [FindChar]
  | cons x xs ih =>
    by_cases hx : x = c
    · simp [FindChar, hx]
    · have hx2 : ¬ c = x := fun h => hx h.symm
      simp [FindChar, hx, hx2, ih]

theorem FindChar_append (pre rest : FString) (c : Char) (h : c ∉ pre) :
    FindChar (pre ++ c :: rest) c = some pre.length := by
  induction pre with
  | nil => simp [FindChar]
  | cons x xs ih =>
    have hx : ¬ x = c := fun e => h (by simp [e])
    have hxs : c ∉ xs := fun e => h (by simp [e])
    simp [FindChar, hx, ih hxs]

theorem FindChar_some_split (s : FString) (c : Char) (p : Nat) (h : FindChar s c = some p) :
    ∃ pre rest, s = pre ++ c :: rest ∧ c ∉ pre ∧ p = pre.length := by
  induction s generalizing p with
  | nil => simp [FindChar] at h
  | cons x xs ih =>
    by_cases hx : x = c
    · refine ⟨[], xs, ?_, ?_, ?_⟩
      · simp [hx]
      · simp
      · simp [FindChar, hx] at h
        simp [← h]
    · simp only [FindChar, hx, if_false, Option.map_eq_some'] at h
      obtain ⟨q, hq, hp⟩ := h
      obtain ⟨pre, rest, hs, hpre, hlen⟩ := ih q hq
      refine ⟨x :: pre, rest, ?_, ?_, ?_⟩
      · simp [hs]
      · intro hmem
        rcases List.mem_cons.mp hmem with e | e
        · exact hx e.symm
        · exact hpre e
      · simp [← hp, hlen]

theorem RemoveAt_append (pre rest : FString) (x : Char) :
    RemoveAt (pre ++ x :: rest) pre.length = pre ++ rest := by
  induction pre with
  | nil => simp [RemoveAt]
  | cons y ys ih => simp [RemoveAt, ih]

theorem InsertAt_append (pre rest : FString) (c : Char) :
    InsertAt (pre ++ rest) pre.length c = pre ++ c :: rest := by
  induction pre with
  | nil => simp [InsertAt]
  | cons y ys ih => simp [InsertAt, ih]

theorem replaceUpper_append (ToUpper : Char → Char) (pre rest R1 : FString)
    (hR : R1 = pre ++ rest) :
    (if h : pre.length < R1.length then
      RemoveAt (InsertAt R1 pre.length (ToUpper (R1.get ⟨pre.length, h⟩))) (pre.length + 1)
    else R1) = pre ++ upperFirst ToUpper rest := by
  subst hR
  cases rest with
  | nil => simp [upperFirst]
  | cons d ds =>
    have hlt : pre.length < (pre ++ d :: ds).length := by simp
    rw [dif_pos hlt]
    have hget : (pre ++ d :: ds).get ⟨pre.length, hlt⟩ = d := by
      rw [List.get_eq_getElem, List.getElem_append_right (Nat.le_refl _)]
      simp
    rw [hget, InsertAt_append]
    have := RemoveAt_append (pre ++ [ToUpper d]) ds d
    simp only [List.length_append, List.length_singleton, List.append_assoc,
      List.singleton_append] at this
    simpa [upperFirst] using this

theorem removeUnderscoreAt_append (ToUpper : Char → Char) (pre rest : FString) :
    removeUnderscoreAt ToUpper (pre ++ '_' :: rest) pre.length = pre ++ upperFirst ToUpper rest :=
  replaceUpper_append ToUpper pre rest _ (RemoveAt_append pre rest '_')

theorem upperFirst_length (ToUpper : Char → Char) (s : FString) :
    (upperFirst ToUpper s).length = s.length := by
  cases s <;> simp [upperFirst]

theorem removeUnderscores_step (ToUpper : Char → Char) (fuel : Nat) (pre rest : FString)
    (hpre : '_' ∉ pre) :
    removeUnderscores ToUpper (fuel + 1) (pre ++ '_' :: rest)
      = removeUnderscores ToUpper fuel (pre ++ upperFirst ToUpper rest) := by
  simp only [removeUnderscores, FindChar_append pre rest '_' hpre, removeUnderscoreAt_append]

theorem removeUnderscores_done (ToUpper : Char → Char) (fuel : Nat) (s : FString)
    (hs : '_' ∉ s) : removeUnderscores ToUpper (fuel + 1) s = some s := by
  simp only [removeUnderscores, (FindChar_eq_none_iff s '_').mpr hs]

/-- Whatever `ToUpper` does, a result of the loop holds no underscore. -/
theorem removeUnderscores_no_underscore (ToUpper : Char → Char) (fuel : Nat) (s r : FString)
    (h : removeUnderscores ToUpper fuel s = some r) : '_' ∉ r := by
  induction fuel generalizing s with
  | zero => simp [removeUnderscores] at h
  | succ n ih =>
    cases hf : FindChar s '_' with
    | none =>
      simp only [removeUnderscores, hf, Option.some.injEq] at h
      subst h
      exact (FindChar_eq_none_iff _ '_').mp hf
    | some p =>
      simp only [removeUnderscores, hf] at h
      exact ih _ h

/-- The loop ends: every pass shortens the string by one character, so fuel beyond
the length of the string is enough. -/
theorem removeUnderscores_total (ToUpper : Char → Char) (fuel : Nat) (s : FString)
    (h : s.length < fuel) :
    ∃ r, removeUnderscores ToUpper fuel s = some r ∧ r.length ≤ s.length := by
  induction fuel generalizing s with
  | zero => exact absurd h (Nat.not_lt_zero _)
  | succ n ih =>
    cases hf : FindChar s '_' with
    | none =>
      exact ⟨s, by simp only [removeUnderscores, hf], Nat.le_refl _⟩
    | some p =>
      obtain ⟨pre, rest, hs, hpre, -⟩ := FindChar_some_split s '_' p hf
      subst hs
      have hlen : (pre ++ upperFirst ToUpper rest).length < n := by
        simp only [List.length_append, List.length_cons, upperFirst_length] at h ⊢
        omega
      obtain ⟨r, hr, hrl⟩ := ih _ hlen
      refine ⟨r, ?_, ?_⟩
      · rw [removeUnderscores_step ToUpper n pre rest hpre, hr]
      · simp only [List.length_append, List.length_cons, upperFirst_length] at hrl ⊢
        omega

/-- The loop computes the reference camel-casing, for any text `rest` behind an
underscore-free prefix, whether or not `rest` directly follows a removed `_`. -/
theorem removeUnderscores_eq_from (ToUpper : Char → Char)
    (hup : ToUpper '_' = '_') (hne : ∀ c, c ≠ '_' → ToUpper c ≠ '_')
    (rest : FString) :
    ∀ (pre : FString) (fuel : Nat) (afterUnderscore : Bool), '_' ∉ pre → rest.length < fuel →
      removeUnderscores ToUpper fuel
          (pre ++ (if afterUnderscore then upperFirst ToUpper rest else rest))
        = some (pre ++ camelCaseFrom ToUpper afterUnderscore rest) := by
  induction rest with
  | nil =>
    intro pre fuel b hpre hfuel
    obtain ⟨n, rfl⟩ : ∃ n, fuel = n + 1 := ⟨fuel - 1, by simp at hfuel; omega⟩
    have : (if b = true then upperFirst ToUpper [] else ([] : FString)) = [] := by
      cases b <;> simp [upperFirst]
    rw [this]
    simpa [camelCaseFrom] using removeUnderscores_done ToUpper n pre hpre
  | cons c cs ih =>
    intro pre fuel b hpre hfuel
    obtain ⟨n, rfl⟩ : ∃ n, fuel = n + 1 := ⟨fuel - 1, by simp at hfuel; omega⟩
    have hn : cs.length < n := by simp at hfuel; omega
    by_cases hc : c = '_'
    · subst hc
      have hin : (if b = true then upperFirst ToUpper ('_' :: cs) else ('_' :: cs)) = '_' :: cs := by
        cases b <;> simp [upperFirst, hup]
      rw [hin, removeUnderscores_step ToUpper n pre cs hpre]
      have := ih pre n true hpre hn
      simpa [camelCaseFrom] using this
    · have hkeep : ∀ d : Char, d ≠ '_' → removeUnderscores ToUpper (n + 1) (pre ++ d :: cs)
          = some (pre ++ d :: camelCaseFrom ToUpper false cs) := by
        intro d hd
        have hpre2 : '_' ∉ pre ++ [d] := by
          simp only [List.mem_append, List.mem_singleton, not_or]
          exact ⟨hpre, fun e => hd e.symm⟩
        have := ih (pre ++ [d]) (n + 1) false hpre2 (Nat.lt_succ_of_lt hn)
        simpa using this
      cases b with
      | false => simpa [camelCaseFrom, hc] using hkeep c hc
      | true => simpa [camelCaseFrom, hc, upperFirst] using hkeep (ToUpper c) (hne c hc)

theorem camelCaseFrom_no_underscore (ToUpper : Char → Char)
    (hne : ∀ c, c ≠ '_' → ToUpper c ≠ '_') (s : FString) (b : Bool) :
    '_' ∉ camelCaseFrom ToUpper b s := by
  induction s generalizing b with
  | nil => simp [camelCaseFrom]
  | cons c cs ih =>
    by_cases hc : c = '_'
    · simpa [camelCaseFrom, hc] using ih true
    · cases b with
      | false =>
        simp only [camelCaseFrom, hc, if_false, List.mem_cons, not_or]
        exact ⟨fun e => hc e.symm, ih false⟩
      | true =>
        simp only [camelCaseFrom, hc, if_false, if_true, List.mem_cons, not_or]
        exact ⟨fun e => hne c hc e.symm, ih false⟩

theorem digitChar_mem_decimalDigits : ∀ m, m < 10 → Nat.digitChar m ∈ decimalDigits := by
  decide

theorem digitChar_value : ∀ m, m < 10 → (Nat.digitChar m).toNat - 48 = m := by
  decide

theorem decimalValue_concat (s : List Char) (c : Char) :
    decimalValue (s ++ [c]) = 10 * decimalValue s + (c.toNat - 48) := by
  simp [decimalValue, List.foldl_append]

theorem toDigitsCore_spec (fuel : Nat) :
    ∀ (n : Nat) (ds : List Char), n < fuel →
      ∃ X, Nat.toDigitsCore 10 fuel n ds = X ++ ds ∧ decimalValue X = n ∧ X ≠ [] ∧
        ∀ c ∈ X, c ∈ decimalDigits := by
  induction fuel with
  | zero => intro n ds h; exact absurd h (Nat.not_lt_zero _)
  | succ f ih =>
    intro n ds h
    have hmod : n % 10 < 10 := Nat.mod_lt _ (by decide)
    by_cases hq : n / 10 = 0
    · refine ⟨[Nat.digitChar (n % 10)], ?_, ?_, by simp, ?_⟩
      · simp [Nat.toDigitsCore, hq]
      · have hlt : n < 10 := by omega
        have hv := digitChar_value _ hmod
        rw [Nat.mod_eq_of_lt hlt] at hv ⊢
        simpa [decimalValue] using hv
      · intro c hc
        rw [List.mem_singleton.mp hc]
        exact digitChar_mem_decimalDigits _ hmod
    · have hlt : n / 10 < f := by omega
      obtain ⟨X, hX, hval, -, hdig⟩ := ih (n / 10) (Nat.digitChar (n % 10) :: ds) hlt
      refine ⟨X ++ [Nat.digitChar (n % 10)], ?_, ?_, by simp, ?_⟩
      · simp [Nat.toDigitsCore, hq, hX]
      · rw [decimalValue_concat, hval, digitChar_value _ hmod]
        omega
      · intro c hc
        rcases List.mem_append.mp hc with h1 | h1
        · exact hdig c h1
        · rw [List.mem_singleton.mp h1]
          exact digitChar_mem_decimalDigits _ hmod

theorem toDigits_spec (n : Nat) :
    decimalValue (Nat.toDigits 10 n) = n ∧ Nat.toDigits 10 n ≠ [] ∧
      ∀ c ∈ Nat.toDigits 10 n, c ∈ decimalDigits := by
  obtain ⟨X, hX, hval, hne, hdig⟩ := toDigitsCore_spec (n + 1) n [] (Nat.lt_succ_self n)
  have : Nat.toDigits 10 n = X := by simp [Nat.toDigits, hX]
  rw [this]
  exact ⟨hval, hne, hdig⟩

theorem toDigits_injective (i j : Nat) (h : Nat.toDigits 10 i = Nat.toDigits 10 j) : i = j := by
  have hi := (toDigits_spec i).1
  have hj := (toDigits_spec j).1
  rw [h] at hi
  exact hi.symm.trans hj

theorem map_toDigits (keyFold : Char → Char) (hfold : ∀ c ∈ decimalDigits, keyFold c = c)
    (n : Nat) : (Nat.toDigits 10 n).map keyFold = Nat.toDigits 10 n := by
  have hd := (toDigits_spec n).2.2
  calc (Nat.toDigits 10 n).map keyFold = (Nat.toDigits 10 n).map id :=
        List.map_congr_left (fun c hc => hfold c (hd c hc))
    _ = Nat.toDigits 10 n := List.map_id _

theorem Contains_iff (keyFold : Char → Char) (ex : List FString) (s : FString) :
    Contains keyFold ex s = true ↔ s.map keyFold ∈ ex.map (List.map keyFold) := by
  simp only [Contains, List.any_eq_true, decide_eq_true_eq, List.mem_map]

theorem candidate_key_injective (keyFold : Char → Char)
    (hfold : ∀ c ∈ decimalDigits, keyFold c = c) (orig : FString) :
    Function.Injective (fun i => (candidate orig i).map keyFold) := by
  intro i j h
  simp only [candidate, Printf_sd] at h
  by_cases hi : i = 0 <;> by_cases hj : j = 0
  · rw [hi, hj]
  · exfalso
    simp only [hi, hj, if_true, if_false, List.map_append, map_toDigits keyFold hfold] at h
    have := congrArg List.length h
    simp only [List.length_map, List.length_append] at this
    have hne := List.length_pos.mpr (toDigits_spec j).2.1
    omega
  · exfalso
    simp only [hi, hj, if_true, if_false, List.map_append, map_toDigits keyFold hfold] at h
    have := congrArg List.length h
    simp only [List.length_map, List.length_append] at this
    have hne := List.length_pos.mpr (toDigits_spec i).2.1
    omega
  · simp only [hi, hj, if_false, List.map_append, map_toDigits keyFold hfold] at h
    exact toDigits_injective i j (List.append_cancel_left h)

/-- Pigeonhole: among the first `ExName.length + 1` candidates one is not in the set. -/
theorem exists_free_candidate (keyFold : Char → Char)
    (hfold : ∀ c ∈ decimalDigits, keyFold c = c) (ex : List FString) (orig : FString) :
    ∃ j, j ≤ ex.length ∧ Contains keyFold ex (candidate orig j) = false := by
  by_contra hcon
  have hall : ∀ j, j ≤ ex.length → Contains keyFold ex (candidate orig j) = true := by
    intro j hj
    by_contra hc
    exact hcon ⟨j, hj, by simpa using hc⟩
  have hsub : (Finset.range (ex.length + 1)).image (fun i => (candidate orig i).map keyFold)
      ⊆ (ex.map (List.map keyFold)).toFinset := by
    intro k hk
    obtain ⟨i, hi, rfl⟩ := Finset.mem_image.mp hk
    rw [List.mem_toFinset]
    exact (Contains_iff keyFold ex _).mp (hall i (by simpa [Nat.lt_succ_iff] using hi))
  have h1 := Finset.card_le_card hsub
  rw [Finset.card_image_of_injective _ (candidate_key_injective keyFold hfold orig),
    Finset.card_range] at h1
  have h2 := List.toFinset_card_le (ex.map (List.map keyFold))
  simp only [List.length_map] at h2
  omega

theorem dedupLoop_run (keyFold : Char → Char) (ex : List FString) (orig : FString) (d : Nat) :
    ∀ (i fuel : Nat),
      (∀ k, i ≤ k → k < i + d → Contains keyFold ex (candidate orig k) = true) →
      Contains keyFold ex (candidate orig (i + d)) = false → d < fuel →
      dedupLoop keyFold ex orig fuel i (candidate orig i) = some (candidate orig (i + d)) := by
  induction d with
  | zero =>
    intro i fuel _ hfree hfuel
    obtain ⟨n, rfl⟩ : ∃ n, fuel = n + 1 := ⟨fuel - 1, by omega⟩
    simp only [Nat.add_zero] at hfree
    simp [dedupLoop, hfree]
  | succ d ih =>
    intro i fuel hbusy hfree hfuel
    obtain ⟨n, rfl⟩ : ∃ n, fuel = n + 1 := ⟨fuel - 1, by omega⟩
    have hi : Contains keyFold ex (candidate orig i) = true := hbusy i (Nat.le_refl _) (by omega)
    have hnext : Printf_sd orig (i + 1) = candidate orig (i + 1) := by simp [candidate]
    simp only [dedupLoop, hi, if_true, hnext]
    have := ih (i + 1) n (fun k h1 h2 => hbusy k (by omega) (by omega))
      (by rw [show i + 1 + d = i + (d + 1) by omega]; exact hfree) (by omega)
    rw [this, show i + 1 + d = i + (d + 1) by omega]

/-- The de-duplication loop ends with a name that is not in the set: the original
name or the original name followed by a counter no larger than the size of the set. -/
theorem dedupLoop_total (keyFold : Char → Char) (hfold : ∀ c ∈ decimalDigits, keyFold c = c)
    (ex : List FString) (orig : FString) (fuel : Nat) (hfuel : ex.length < fuel) :
    ∃ j, j ≤ ex.length ∧ dedupLoop keyFold ex orig fuel 0 orig = some (candidate orig j) ∧
      Contains keyFold ex (candidate orig j) = false := by
  classical
  have hex : ∃ j, Contains keyFold ex (candidate orig j) = false := by
    obtain ⟨j, -, hj⟩ := exists_free_candidate keyFold hfold ex orig
    exact ⟨j, hj⟩
  have hmin := Nat.find_spec hex
  have hle : Nat.find hex ≤ ex.length := by
    obtain ⟨j, hj1, hj2⟩ := exists_free_candidate keyFold hfold ex orig
    exact (Nat.find_min' hex hj2).trans hj1
  refine ⟨Nat.find hex, hle, ?_, hmin⟩
  have hrun := dedupLoop_run keyFold ex orig (Nat.find hex) 0 fuel
    (fun k _ hk => by
      have := Nat.find_min hex (by simpa using hk)
      simpa using this)
    (by simpa using hmin) (by omega)
  simpa [candidate] using hrun

theorem dedupLoop_result (keyFold : Char → Char) (ex : List FString) (orig : FString)
    (fuel : Nat) : ∀ (i : Nat) (r : FString),
      dedupLoop keyFold ex orig fuel i (candidate orig i) = some r → ∃ j, r = candidate orig j := by
  induction fuel with
  | zero => intro i r h; simp [dedupLoop] at h
  | succ n ih =>
    intro i r h
    have hnext : Printf_sd orig (i + 1) = candidate orig (i + 1) := by simp [candidate]
    by_cases hc : Contains keyFold ex (candidate orig i) = true
    · simp only [dedupLoop, hc, if_true, hnext] at h
      exact ih (i + 1) r h
    · have hc2 : Contains keyFold ex (candidate orig i) = false := by simpa using hc
      simp only [dedupLoop, hc2, Bool.false_eq_true, if_false, Option.some.injEq] at h
      exact ⟨i, h.symm⟩

theorem candidate_no_underscore (orig : FString) (j : Nat) (h : '_' ∉ orig) :
    '_' ∉ candidate orig j := by
  unfold candidate Printf_sd
  split
  · exact h
  · intro hmem
    rcases List.mem_append.mp hmem with h1 | h1
    · exact h h1
    · have := (toDigits_spec j).2.2 _ h1
      revert this
      decide

/-- No generated row name holds an underscore, whatever the engine functions do. -/
theorem rowNameLoop_no_underscore (sanitize : FString → FString) (up fold : Char → Char)
    (fuel : Nat) (names : List FString) :
    ∀ (ex rows : List FString), rowNameLoop sanitize up fold fuel ex names = some rows →
      ∀ r ∈ rows, '_' ∉ r := by
  induction names with
  | nil =>
    intro ex rows h r hr
    simp only [rowNameLoop, Option.some.injEq] at h
    subst h
    simp at hr
  | cons name rest ih =>
    intro ex rows h r hr
    simp only [rowNameLoop] at h
    cases hb : baseRowName sanitize up fuel name with
    | none => simp [hb] at h
    | some base =>
      simp only [hb] at h
      cases hd : dedupLoop fold ex base fuel 0 base with
      | none => simp [hd] at h
      | some row =>
        simp only [hd] at h
        cases ht : rowNameLoop sanitize up fold fuel (ex ++ [row]) rest with
        | none => simp [ht] at h
        | some rows2 =>
          simp only [ht, Option.some.injEq] at h
          subst h
          rcases List.mem_cons.mp hr with e | e
          · subst e
            have hbase : '_' ∉ base := removeUnderscores_no_underscore up fuel _ base hb
            have hd2 : dedupLoop fold ex base fuel 0 (candidate base 0) = some r := by
              simpa [candidate] using hd
            obtain ⟨j, hj⟩ := dedupLoop_result fold ex base fuel 0 r hd2
            rw [hj]
            exact candidate_no_underscore base j hbase
          · exact ih _ _ ht r e

/-- The loop over the frame names, started from any running set whose keys are
pairwise distinct: with enough fuel it returns one row name per frame name, the
keys of set and rows together stay pairwise distinct, and the row at position `k`
is the base name of the frame at position `k`, or that name followed by a counter
bounded by the size of the set at that point. -/
theorem rowNameLoop_spec (sanitize : FString → FString) (up fold : Char → Char)
    (hfold : ∀ c ∈ decimalDigits, fold c = c) (fuel : Nat) (names : List FString) :
    ∀ (ex : List FString), (ex.map (List.map fold)).Nodup →
      ex.length + names.length < fuel →
      (∀ n ∈ names, (sanitize (stripExtension n)).length + 1 < fuel) →
      ∃ rows, rowNameLoop sanitize up fold fuel ex names = some rows ∧
        rows.length = names.length ∧
        ((ex ++ rows).map (List.map fold)).Nodup ∧
        ∀ (k : Nat) (h1 : k < names.length) (h2 : k < rows.length),
          ∃ base i, baseRowName sanitize up fuel (names.get ⟨k, h1⟩) = some base ∧
            i ≤ ex.length + k ∧ rows.get ⟨k, h2⟩ = candidate base i := by
  induction names with
  | nil =>
    intro ex hnd _ _
    refine ⟨[], by simp [rowNameLoop], rfl, by simpa using hnd, ?_⟩
    intro k h1
    exact absurd h1 (Nat.not_lt_zero _)
  | cons name rest ih =>
    intro ex hnd hfuel hlen
    obtain ⟨base, hbase, -⟩ := removeUnderscores_total up fuel
      ('_' :: sanitize (stripExtension name))
      (by simpa using hlen name (List.mem_cons_self _ _))
    have hb : baseRowName sanitize up fuel name = some base := hbase
    obtain ⟨j, hj, hrun, hfree⟩ := dedupLoop_total fold hfold ex base fuel
      (by simp only [List.length_cons] at hfuel; omega)
    have hkey : (candidate base j).map fold ∉ ex.map (List.map fold) := by
      intro hmem
      have := (Contains_iff fold ex _).mpr hmem
      rw [hfree] at this
      exact Bool.noConfusion this
    have hnd2 : ((ex ++ [candidate base j]).map (List.map fold)).Nodup := by
      rw [List.map_append, List.map_singleton]
      exact List.Nodup.append hnd (List.nodup_singleton _)
        (by
          intro a ha hb
          rw [List.mem_singleton] at hb
          exact hkey (hb ▸ ha))
    obtain ⟨rows, hrows, hlenr, hndr, hidx⟩ := ih (ex ++ [candidate base j]) hnd2
      (by simp only [List.length_cons, List.length_append, List.length_nil] at hfuel ⊢; omega)
      (fun n hn => hlen n (List.mem_cons_of_mem _ hn))
    refine ⟨candidate base j :: rows, ?_, by simp [hlenr], ?_, ?_⟩
    · simp only [rowNameLoop, hb, hrun, hrows]
    · simpa using hndr
    · intro k h1 h2
      cases k with
      | zero => exact ⟨base, j, hb, by omega, rfl⟩
      | succ k =>
        obtain ⟨b, i, hb1, hi, hr⟩ := hidx k (by simpa using h1) (by simpa using h2)
        refine ⟨b, i, by simpa using hb1, ?_, by simpa using hr⟩
        simp only [List.length_append, List.length_singleton] at hi
        omega

theorem FindLastChar_eq_none_iff (s : FString) (c : Char) :
    FindLastChar s c = none ↔ c ∉ s := by
  induction s with
  | nil => simp [FindLastChar]
  | cons x xs ih =>
    by_cases hx : x = c
    · cases h : FindLastChar xs c <;> simp [FindLastChar, h, hx]
    · have hx2 : ¬ c = x := fun h => hx h.symm
      cases h : FindLastChar xs c with
      | none => simp [FindLastChar, h, hx, hx2, ih.mp h]
      | some i =>
        have : c ∈ xs := by
          by_contra hn
          rw [ih.mpr hn] at h
          exact Option.noConfusion h
        simp [FindLastChar, h, this]

theorem FindLastChar_append (pre post : FString) (c : Char) (h : c ∉ post) :
    FindLastChar (pre ++ c :: post) c = some pre.length := by
  induction pre with
  | nil => simp [FindLastChar, (FindLastChar_eq_none_iff post c).mpr h]
  | cons x xs ih => simp [FindLastChar, ih]

theorem stripExtension_no_dot (name : FString) (h : '.' ∉ name) : stripExtension name = name := by
  simp [stripExtension, (FindLastChar_eq_none_iff name '.').mpr h, outIndex, INDEX_NONE]

theorem stripExtension_dot (pre post : FString) (h : '.' ∉ post) :
    stripExtension (pre ++ '.' :: post) = if pre = [] then '.' :: post else pre := by
  cases pre with
  | nil =>
    have hf := FindLastChar_append [] post '.' h
    simp only [List.nil_append, List.length_nil] at hf
    simp [stripExtension, hf, outIndex]
  | cons x xs =>
    have hf := FindLastChar_append (x :: xs) post '.' h
    have hpos : ¬ ((((x :: xs).length : Nat) : Int) < 1) := by
      simp only [List.length_cons]; omega
    simp only [stripExtension, hf, outIndex, hpos, if_false, Left, Int.toNat_ofNat]
    simp

theorem frameLoop_no_cancel (cancel : Nat → Bool) (hc : ∀ i, cancel i = false) (Size : FVtaSize)
    (frames : List FVtaFrame) :
    ∀ i, frameLoop cancel Size i frames = frames.map (fun f => frameUVs f.Frame Size) := by
  induction frames with
  | nil => intro i; rfl
  | cons f fs ih => intro i; simp [frameLoop, hc, ih]

theorem toUpper_underscore : Char.toUpper '_' = '_' := by decide

set_option maxRecDepth 100000 in
theorem ofNat_upper_range : ∀ n, n < 123 → 97 ≤ n → Char.ofNat (n - 32) ≠ '_' := by
  decide

theorem toUpper_ne_underscore (c : Char) (hc : c ≠ '_') : Char.toUpper c ≠ '_' := by
  unfold Char.toUpper
  simp only []
  split
  · rename_i h
    exact ofNat_upper_range c.toNat (by omega) h.1
  · exact hc

theorem length_le_sum_map (f : FString → Nat) (names : List FString) :
    ∀ n ∈ names, f n ≤ (names.map f).sum := by
  induction names with
  | nil => intro n hn; simp at hn
  | cons x xs ih =>
    intro n hn
    rcases List.mem_cons.mp hn with e | e
    · subst e; simp
    · have := ih n e
      simp only [List.map_cons, List.sum_cons]
      omega

/-! ## Binary32 rounding -/

theorem roundNearest32_zero : roundNearest32 0 = 0 := by
  simp [roundNearest32]

theorem roundNearest32_abs (q : ℚ) (hq : q ≠ 0) :
    |roundNearest32 q| = (significand32 q : ℚ) * (2 : ℚ) ^ ulpExponent32 q := by
  have hnn : (0 : ℚ) ≤ (significand32 q : ℚ) * (2 : ℚ) ^ ulpExponent32 q := by positivity
  unfold roundNearest32
  rw [if_neg hq]
  split
  · rw [abs_neg, abs_of_nonneg hnn]
  · exact abs_of_nonneg hnn

/-- The zero-size branch in binary32: a zero divisor gives a non-finite quotient,
and a non-finite operand a non-finite sum. -/
theorem floatDiv32_zero (a : Int) (x : FloatVal) :
    floatDiv32 a 0 = FloatVal.nonFinite ∧ floatAdd32 (floatDiv32 a 0) x = FloatVal.nonFinite := by
  have h : floatDiv32 a 0 = FloatVal.nonFinite := by
    simp [floatDiv32, intToFloat, roundNearest32_zero]
  refine ⟨h, ?_⟩
  rw [h]
  cases x <;> rfl

/-! ## The claims -/

/-- C1: for every finite sequence of frame names the row-name generation of
`ImportOrReimportDataTable` terminates (all fuel from some bound on gives a result),
returns exactly one row name per frame name, in input order (row `k` is the base name
of frame `k`, alone or followed by a counter of at most `k`), and the row names are
pairwise distinct. The set's key comparison may fold case as long as it leaves the
decimal digits alone. -/
theorem generateRowNames_total_distinct (sanitize : FString → FString) (up fold : Char → Char)
    (names : List FString) (hfold : ∀ c ∈ decimalDigits, fold c = c) :
    ∃ N, ∀ fuel, N ≤ fuel →
      ∃ rows, generateRowNames sanitize up fold fuel names = some rows ∧
        rows.length = names.length ∧ rows.Nodup ∧
        ∀ (k : Nat) (h1 : k < names.length) (h2 : k < rows.length),
          ∃ base i, baseRowName sanitize up fuel (names.get ⟨k, h1⟩) = some base ∧
            i ≤ k ∧ rows.get ⟨k, h2⟩ = candidate base i := by
  refine ⟨names.length + (names.map (fun n => (sanitize (stripExtension n)).length)).sum + 2, ?_⟩
  intro fuel hfuel
  obtain ⟨rows, hrows, hlen, hnd, hidx⟩ := rowNameLoop_spec sanitize up fold hfold fuel names []
    (by simp) (by simp only [List.length_nil]; omega)
    (fun n hn => by
      have := length_le_sum_map (fun n => (sanitize (stripExtension n)).length) names n hn
      simp only at this
      omega)
  refine ⟨rows, hrows, hlen, ?_, ?_⟩
  · simp only [List.nil_append] at hnd
    exact List.Nodup.of_map _ hnd
  · intro k h1 h2
    obtain ⟨base, i, hb, hi, hr⟩ := hidx k h1 h2
    exact ⟨base, i, hb, by simpa using hi, hr⟩

/-- C1 at three frame names, two of which collide. -/
theorem generateRowNames_total_distinct_witness :
    (∀ c ∈ decimalDigits, Char.toLower c = c) ∧
    ∃ N, ∀ fuel, N ≤ fuel →
      ∃ rows, generateRowNames id Char.toUpper Char.toLower fuel
          ["Foo.png".toList, "foo.jpg".toList, "player_idle.png".toList] = some rows ∧
        rows.length = ["Foo.png".toList, "foo.jpg".toList, "player_idle.png".toList].length ∧
        rows.Nodup ∧
        ∀ (k : Nat)
          (h1 : k < ["Foo.png".toList, "foo.jpg".toList, "player_idle.png".toList].length)
          (h2 : k < rows.length),
          ∃ base i, baseRowName id Char.toUpper fuel
              (["Foo.png".toList, "foo.jpg".toList, "player_idle.png".toList].get ⟨k, h1⟩)
                = some base ∧
            i ≤ k ∧ rows.get ⟨k, h2⟩ = candidate base i :=
  ⟨by decide, generateRowNames_total_distinct id Char.toUpper Char.toLower _ (by decide)⟩

/-- C2: with a positive image size and a frame rectangle of non-negative
coordinates and extents lying inside the image, the four UVs are finite and, read as
exact rationals, satisfy `uMin ≤ uMax`, `vMin ≤ vMax` and all lie in `[0, 1]`. -/
theorem frameUVs_in_unit_square (Frame : FVtaRect) (Size : FVtaSize)
    (hW : 0 < Size.W) (hH : 0 < Size.H)
    (hx : 0 ≤ Frame.X) (hy : 0 ≤ Frame.Y) (hw : 0 ≤ Frame.W) (hh : 0 ≤ Frame.H)
    (hxw : Frame.X + Frame.W ≤ Size.W) (hyh : Frame.Y + Frame.H ≤ Size.H) :
    ∃ uMin uMax vMin vMax : ℚ,
      frameUVs Frame Size = { R := FloatVal.finite uMin, G := FloatVal.finite uMax,
                              B := FloatVal.finite vMin, A := FloatVal.finite vMax } ∧
      uMin ≤ uMax ∧ vMin ≤ vMax ∧
      (0 ≤ uMin ∧ uMin ≤ 1) ∧ (0 ≤ uMax ∧ uMax ≤ 1) ∧
      (0 ≤ vMin ∧ vMin ≤ 1) ∧ (0 ≤ vMax ∧ vMax ≤ 1) := by
  have hW0 : Size.W ≠ 0 := ne_of_gt hW
  have hH0 : Size.H ≠ 0 := ne_of_gt hH
  have hWq : (0 : ℚ) < (Size.W : ℚ) := by exact_mod_cast hW
  have hHq : (0 : ℚ) < (Size.H : ℚ) := by exact_mod_cast hH
  have hxq : (0 : ℚ) ≤ (Frame.X : ℚ) := by exact_mod_cast hx
  have hyq : (0 : ℚ) ≤ (Frame.Y : ℚ) := by exact_mod_cast hy
  have hwq : (0 : ℚ) ≤ (Frame.W : ℚ) := by exact_mod_cast hw
  have hhq : (0 : ℚ) ≤ (Frame.H : ℚ) := by exact_mod_cast hh
  have hxwq : (Frame.X : ℚ) + (Frame.W : ℚ) ≤ (Size.W : ℚ) := by exact_mod_cast hxw
  have hyhq : (Frame.Y : ℚ) + (Frame.H : ℚ) ≤ (Size.H : ℚ) := by exact_mod_cast hyh
  have hu : (Frame.X : ℚ) / Size.W + (Frame.W : ℚ) / Size.W ≤ 1 := by
    rw [← add_div, div_le_one hWq]; exact hxwq
  have hv : (Frame.Y : ℚ) / Size.H + (Frame.H : ℚ) / Size.H ≤ 1 := by
    rw [← add_div, div_le_one hHq]; exact hyhq
  have hu0 : (0 : ℚ) ≤ (Frame.X : ℚ) / Size.W := div_nonneg hxq hWq.le
  have hv0 : (0 : ℚ) ≤ (Frame.Y : ℚ) / Size.H := div_nonneg hyq hHq.le
  have hu1 : (0 : ℚ) ≤ (Frame.W : ℚ) / Size.W := div_nonneg hwq hWq.le
  have hv1 : (0 : ℚ) ≤ (Frame.H : ℚ) / Size.H := div_nonneg hhq hHq.le
  refine ⟨(Frame.X : ℚ) / Size.W, (Frame.X : ℚ) / Size.W + (Frame.W : ℚ) / Size.W,
    (Frame.Y : ℚ) / Size.H, (Frame.Y : ℚ) / Size.H + (Frame.H : ℚ) / Size.H, ?_, ?_, ?_,
    ⟨hu0, ?_⟩, ⟨?_, hu⟩, ⟨hv0, ?_⟩, ⟨?_, hv⟩⟩
  · simp [frameUVs, floatDiv, floatAdd, hW0, hH0]
  all_goals linarith

/-- C2 at a 100x50 image and the frame `{x:10, y:5, w:50, h:25}`. -/
theorem frameUVs_in_unit_square_witness :
    ∃ uMin uMax vMin vMax : ℚ,
      frameUVs { X := 10, Y := 5, W := 50, H := 25 } { W := 100, H := 50 }
        = { R := FloatVal.finite uMin, G := FloatVal.finite uMax,
            B := FloatVal.finite vMin, A := FloatVal.finite vMax } ∧
      uMin ≤ uMax ∧ vMin ≤ vMax ∧
      (0 ≤ uMin ∧ uMin ≤ 1) ∧ (0 ≤ uMax ∧ uMax ≤ 1) ∧
      (0 ≤ vMin ∧ vMin ≤ 1) ∧ (0 ≤ vMax ∧ vMax ≤ 1) :=
  frameUVs_in_unit_square { X := 10, Y := 5, W := 50, H := 25 } { W := 100, H := 50 }
    (by decide) (by decide) (by decide) (by decide) (by decide) (by decide)
    (by decide) (by decide)

/-- C4, negated as stated: whatever the sanitiser, the upper-casing and the key
comparison are, `player_idle.png` never gets the row name `_playerIdle`. -/
theorem player_idle_not_marked :
    ¬ ∃ (sanitize : FString → FString) (up fold : Char → Char) (fuel : Nat),
      generateRowNames sanitize up fold fuel ["player_idle.png".toList]
        = some ["_playerIdle".toList] := by
  rintro ⟨sanitize, up, fold, fuel, h⟩
  have := rowNameLoop_no_underscore sanitize up fold fuel _ [] _ h "_playerIdle".toList
    (by simp)
  exact this (by decide)

/-- C4, amended: for `player_idle.png` the extension is stripped to `player_idle`,
and when the sanitiser keeps that name and `p`, `i` upper-case to `P`, `I`, the row
name is `PlayerIdle`: the `_` put in front is removed by the underscore loop and the
character behind it upper-cased. No generated row name holds a `_` at all. -/
theorem player_idle_row_name (sanitize : FString → FString) (up fold : Char → Char)
    (hs : sanitize "player_idle".toList = "player_idle".toList)
    (hp : up 'p' = 'P') (hi : up 'i' = 'I') :
    stripExtension "player_idle.png".toList = "player_idle".toList ∧
    (∀ fuel, 3 ≤ fuel →
      generateRowNames sanitize up fold fuel ["player_idle.png".toList]
        = some ["PlayerIdle".toList]) ∧
    (∀ (fuel : Nat) (names rows : List FString),
      generateRowNames sanitize up fold fuel names = some rows → ∀ r ∈ rows, '_' ∉ r) := by
  have hstrip : stripExtension "player_idle.png".toList = "player_idle".toList := by decide
  refine ⟨hstrip, ?_, ?_⟩
  · intro fuel hfuel
    obtain ⟨n, rfl⟩ : ∃ n, fuel = n + 3 := ⟨fuel - 3, by omega⟩
    have h1 : baseRowName sanitize up (n + 3) "player_idle.png".toList
        = some "PlayerIdle".toList := by
      unfold baseRowName
      rw [hstrip, hs]
      have e1 := removeUnderscores_step up (n + 2) [] "player_idle".toList (by simp)
      have e2 := removeUnderscores_step up (n + 1) "Player".toList "idle".toList (by decide)
      have e3 := removeUnderscores_done up n "PlayerIdle".toList (by decide)
      simp only [List.nil_append] at e1
      rw [e1]
      have u1 : upperFirst up "player_idle".toList = "Player".toList ++ '_' :: "idle".toList := by
        simp [upperFirst, hp]
      have u2 : "Player".toList ++ upperFirst up "idle".toList = "PlayerIdle".toList := by
        simp [upperFirst, hi]
      rw [u1, e2, u2, e3]
    simp only [generateRowNames, rowNameLoop, h1, dedupLoop, Contains, List.any_nil,
      Bool.false_eq_true, if_false]
  · intro fuel names rows h
    exact rowNameLoop_no_underscore sanitize up fold fuel names [] rows h

/-- C4, amended, with the identity as sanitiser and ASCII upper-casing. -/
theorem player_idle_row_name_witness :
    stripExtension "player_idle.png".toList = "player_idle".toList ∧
    (∀ fuel, 3 ≤ fuel →
      generateRowNames id Char.toUpper Char.toLower fuel ["player_idle.png".toList]
        = some ["PlayerIdle".toList]) ∧
    (∀ (fuel : Nat) (names rows : List FString),
      generateRowNames id Char.toUpper Char.toLower fuel names = some rows →
        ∀ r ∈ rows, '_' ∉ r) :=
  player_idle_row_name id Char.toUpper Char.toLower rfl (by decide) (by decide)

/-- C5, negated as stated: whatever the engine functions are, `Foo.png` and
`Foo.jpg` never get the row names `_Foo` and `_Foo1`. -/
theorem foo_rows_not_marked :
    ¬ ∃ (sanitize : FString → FString) (up fold : Char → Char) (fuel : Nat),
      generateRowNames sanitize up fold fuel ["Foo.png".toList, "Foo.jpg".toList]
        = some ["_Foo".toList, "_Foo1".toList] := by
  rintro ⟨sanitize, up, fold, fuel, h⟩
  have := rowNameLoop_no_underscore sanitize up fold fuel _ [] _ h "_Foo".toList
    (by simp)
  exact this (by decide)

/-- C5, amended: two frame names that both sanitise to `Foo` get the row names
`Foo` and `Foo1`, in that order: the first keeps the generated name, the second
receives the suffix 1; neither starts with `_`. `F` is its own upper case. -/
theorem foo_rows (sanitize : FString → FString) (up fold : Char → Char)
    (n1 n2 : FString)
    (h1 : sanitize (stripExtension n1) = "Foo".toList)
    (h2 : sanitize (stripExtension n2) = "Foo".toList)
    (hF : up 'F' = 'F') (fuel : Nat) (hfuel : 2 ≤ fuel) :
    generateRowNames sanitize up fold fuel [n1, n2] = some ["Foo".toList, "Foo1".toList] := by
  obtain ⟨n, rfl⟩ : ∃ n, fuel = n + 2 := ⟨fuel - 2, by omega⟩
  have hb : ∀ name, sanitize (stripExtension name) = "Foo".toList →
      baseRowName sanitize up (n + 2) name = some "Foo".toList := by
    intro name hname
    unfold baseRowName
    rw [hname]
    have e1 := removeUnderscores_step up (n + 1) [] "Foo".toList (by simp)
    have e2 := removeUnderscores_done up n "Foo".toList (by decide)
    simp only [List.nil_append] at e1
    have u1 : upperFirst up "Foo".toList = "Foo".toList := by simp [upperFirst, hF]
    rw [e1, u1, e2]
  have hd : (Nat.toDigits 10 1) = ['1'] := by decide
  simp [generateRowNames, rowNameLoop, hb n1 h1, hb n2 h2, dedupLoop, Contains, Printf_sd, hd]

/-- C5, amended, at `Foo.png` and `Foo.jpg`. -/
theorem foo_rows_witness :
    generateRowNames id Char.toUpper Char.toLower 2 ["Foo.png".toList, "Foo.jpg".toList]
      = some ["Foo".toList, "Foo1".toList] :=
  foo_rows id Char.toUpper Char.toLower "Foo.png".toList "Foo.jpg".toList
    (by decide) (by decide) (by decide) 2 (by decide)

/-- C6: for empty file contents `ParseJSON` returns the null descriptor; what it
logs is the `wasEmpty` entry (nothing in silent mode) and never the
`failedToParse` entry; and the outcome is the same for every deserialiser, which is not
consulted. -/
theorem ParseJSON_empty {Json : Type} (Deserialize : FString → DeserializeResult Json)
    (NameForErrors : FString) (bSilent : Bool) :
    ParseJSON Deserialize [] NameForErrors bSilent
        = (none, if bSilent then [] else [LogEntry.wasEmpty NameForErrors]) ∧
      (∀ e ∈ (ParseJSON Deserialize [] NameForErrors bSilent).2,
        e = LogEntry.wasEmpty NameForErrors) ∧
      (∀ (Name2 ErrorMessage : FString),
        LogEntry.failedToParse Name2 ErrorMessage
          ∉ (ParseJSON Deserialize [] NameForErrors bSilent).2) ∧
      (∀ Deserialize2 : FString → DeserializeResult Json,
        ParseJSON Deserialize2 [] NameForErrors bSilent
          = ParseJSON Deserialize [] NameForErrors bSilent) := by
  cases bSilent <;> simp [ParseJSON]

/-- C7: for every file content and error name `ParseJSON` returns the same pointer
in silent and in non-silent mode; in silent mode it logs nothing; in non-silent mode
it logs exactly one entry when it returns null and none when it returns a
descriptor. -/
theorem ParseJSON_silent {Json : Type} (Deserialize : FString → DeserializeResult Json)
    (FileContents NameForErrors : FString) :
    (ParseJSON Deserialize FileContents NameForErrors true).1
        = (ParseJSON Deserialize FileContents NameForErrors false).1 ∧
      (ParseJSON Deserialize FileContents NameForErrors true).2 = [] ∧
      ((ParseJSON Deserialize FileContents NameForErrors false).1 = none →
        (ParseJSON Deserialize FileContents NameForErrors false).2.length = 1) ∧
      ((ParseJSON Deserialize FileContents NameForErrors false).1 ≠ none →
        (ParseJSON Deserialize FileContents NameForErrors false).2 = []) := by
  unfold ParseJSON
  cases hE : FileContents.isEmpty
  · cases hS : (Deserialize FileContents).success
    · simp [hS]
    · cases hO : (Deserialize FileContents).DescriptorObject <;> simp [hS, hO]
  · simp

/-- C8, negated as stated: `.png` has its last `.` in front of the dot-free `png`,
yet the stripping step returns the whole name and not the empty text before the `.`. -/
theorem stripExtension_leading_dot :
    '.' ∉ "png".toList ∧
      stripExtension ([] ++ '.' :: "png".toList) = ".png".toList ∧
      stripExtension ([] ++ '.' :: "png".toList) ≠ [] := by
  decide

/-- C8, amended: a name without `.` is kept whole; a name whose last `.` comes after
at least one character is cut to the text before that `.`; a name whose last `.` is
its first character is kept whole. -/
theorem stripExtension_cases (name pre post : FString)
    (hname : '.' ∉ name) (hpost : '.' ∉ post) :
    stripExtension name = name ∧
      stripExtension (pre ++ '.' :: post) = (if pre = [] then '.' :: post else pre) :=
  ⟨stripExtension_no_dot name hname, stripExtension_dot pre post hpost⟩

/-- C8, amended, at `readme`, `atlas.frame.png`. -/
theorem stripExtension_cases_witness :
    ('.' ∉ "readme".toList ∧ '.' ∉ "png".toList) ∧
      stripExtension "readme".toList = "readme".toList ∧
      stripExtension ("atlas.frame".toList ++ '.' :: "png".toList)
        = (if "atlas.frame".toList = [] then '.' :: "png".toList else "atlas.frame".toList) :=
  ⟨by decide, stripExtension_cases "readme".toList "atlas.frame".toList "png".toList
    (by decide) (by decide)⟩

/-- C9, negated as stated: with image width zero the UV computation of a frame does
not fail: the two divisions by the width give non-finite values; and for a data
model of width zero that passed `IsValid`, `FactoryCreateText` computes these UVs
and does not return a failure. -/
theorem frameUVs_zero_width_computed :
    frameUVs { X := 0, Y := 0, W := 50, H := 25 } { W := 0, H := 50 }
        = { R := FloatVal.nonFinite, G := FloatVal.nonFinite,
            B := FloatVal.finite 0, A := FloatVal.finite (1 / 2) } ∧
      FactoryCreateText_frameUVs (fun _ => true) (fun _ => false)
          { Frames := [{ Filename := "a.png".toList,
                         Frame := { X := 0, Y := 0, W := 50, H := 25 } }],
            Meta := { Image := "atlas.png".toList, Size := { W := 0, H := 50 } } }
        = some [{ R := FloatVal.nonFinite, G := FloatVal.nonFinite,
                  B := FloatVal.finite 0, A := FloatVal.finite (1 / 2) }] := by
  have h : frameUVs { X := 0, Y := 0, W := 50, H := 25 } { W := 0, H := 50 }
      = { R := FloatVal.nonFinite, G := FloatVal.nonFinite,
          B := FloatVal.finite 0, A := FloatVal.finite (1 / 2) } := by
    simp [frameUVs, floatDiv, floatAdd]
    norm_num
  exact ⟨h, by simp [FactoryCreateText_frameUVs, frameLoop, h]⟩

/-- C9, amended: `FactoryCreateText` has no check of the image size and no typed
geometry error. When the user does not cancel, it returns null exactly when
`IsValid` rejects the data model; otherwise it computes one UV record per frame,
whose `R`, `G` are non-finite when the width is zero and whose `B`, `A` are
non-finite when the height is zero. -/
theorem FactoryCreateText_zero_size (IsValid : FVtaDataFile → Bool) (cancel : Nat → Bool)
    (DataModel : FVtaDataFile) (hcancel : ∀ i, cancel i = false) :
    ∃ uvs : List FLinearColor,
      FactoryCreateText_frameUVs IsValid cancel DataModel
          = (if IsValid DataModel then some uvs else none) ∧
        uvs.length = DataModel.Frames.length ∧
        ∀ c ∈ uvs,
          (DataModel.Meta.Size.W = 0 → c.R = FloatVal.nonFinite ∧ c.G = FloatVal.nonFinite) ∧
          (DataModel.Meta.Size.H = 0 → c.B = FloatVal.nonFinite ∧ c.A = FloatVal.nonFinite) := by
  refine ⟨DataModel.Frames.map (fun f => frameUVs f.Frame DataModel.Meta.Size), ?_, by simp, ?_⟩
  · simp only [FactoryCreateText_frameUVs, frameLoop_no_cancel cancel hcancel]
  · intro c hc
    obtain ⟨f, -, rfl⟩ := List.mem_map.mp hc
    constructor
    · intro hW
      simp [frameUVs, floatDiv, floatAdd, hW]
    · intro hH
      simp [frameUVs, floatDiv, floatAdd, hH]

/-- C9, amended, at a one-frame data model of width zero that `IsValid` accepts. -/
theorem FactoryCreateText_zero_size_witness :
    ∃ uvs : List FLinearColor,
      FactoryCreateText_frameUVs (fun _ => true) (fun _ => false)
          { Frames := [{ Filename := "a.png".toList,
                         Frame := { X := 0, Y := 0, W := 50, H := 25 } }],
            Meta := { Image := "atlas.png".toList, Size := { W := 0, H := 50 } } }
          = some uvs ∧
        uvs.length = 1 ∧
        ∀ c ∈ uvs, c.R = FloatVal.nonFinite ∧ c.G = FloatVal.nonFinite := by
  obtain ⟨uvs, h1, h2, h3⟩ := FactoryCreateText_zero_size (fun _ => true) (fun _ => false)
    { Frames := [{ Filename := "a.png".toList, Frame := { X := 0, Y := 0, W := 50, H := 25 } }],
      Meta := { Image := "atlas.png".toList, Size := { W := 0, H := 50 } } }
    (fun _ => rfl)
  exact ⟨uvs, by simpa using h1, by simpa using h2, fun c hc => (h3 c hc).1 rfl⟩

/-- C10: when `ToUpper` keeps `_` and never yields `_` from another character, the
underscore loop terminates on every string (fuel beyond its length is enough) with
the reference result: every `_` deleted, each kept character that directly followed
a deleted `_` upper-cased, everything else unchanged; so the result holds no `_`. -/
theorem removeUnderscores_eq_camelCaseRef (ToUpper : Char → Char)
    (hup : ToUpper '_' = '_') (hne : ∀ c, c ≠ '_' → ToUpper c ≠ '_') (s : FString) :
    (∀ fuel, s.length < fuel → removeUnderscores ToUpper fuel s = some (camelCaseRef ToUpper s)) ∧
      '_' ∉ camelCaseRef ToUpper s := by
  constructor
  · intro fuel hfuel
    have := removeUnderscores_eq_from ToUpper hup hne s [] fuel false (by simp) hfuel
    simpa [camelCaseRef] using this
  · exact camelCaseFrom_no_underscore ToUpper hne s false

/-- C10 at `a__b` with ASCII upper-casing: the result is `aB`. -/
theorem removeUnderscores_eq_camelCaseRef_witness :
    (Char.toUpper '_' = '_' ∧ ∀ c, c ≠ '_' → Char.toUpper c ≠ '_') ∧
      ((∀ fuel, "a__b".toList.length < fuel →
          removeUnderscores Char.toUpper fuel "a__b".toList
            = some (camelCaseRef Char.toUpper "a__b".toList)) ∧
        '_' ∉ camelCaseRef Char.toUpper "a__b".toList) ∧
      camelCaseRef Char.toUpper "a__b".toList = "aB".toList :=
  ⟨⟨toUpper_underscore, toUpper_ne_underscore⟩,
    removeUnderscores_eq_camelCaseRef Char.toUpper toUpper_underscore toUpper_ne_underscore
      "a__b".toList,
    by decide⟩

end VaTexAtlas
